import Mathlib

/-!
Verification of the hydroform orchestration core: the forest manager
(`manager` package, `manager.go`) and the concrete linked-items operator
(`function/pkg/operator/triggers_operator.go`).

Errors are modelled as `Option Err` with `Err := String` (Go's `error`,
`none` standing for `nil`).  Go maps of labels are modelled as association
lists with lookup semantics.  Remote interaction is modelled by a pure
`Client` record of response functions; every remote call and every callback
firing of the concrete operator is recorded in an event trace, and the
manager records every `Apply`/`Delete` invocation on an operator likewise,
so that ordering and "no calls are made" properties can be stated.
-/

namespace Hydro

/-- Go `error` values, by their message; `none` is `nil`. -/
abbrev Err := String

/-- `metav1.OwnerReference`, restricted to the four identity fields the
manager harvests (`manager.go`, `ownerReferenceCallback`). -/
structure OwnerReference where
  apiVersion : String
  kind : String
  name : String
  uid : String
deriving Repr, DecidableEq

/-- Modelled from the spec: the `client.StatusType` enumeration (the client
package is not under src).  The spec names `Applied`, `ApplyFailed`,
`Deleted`, `DeleteFailed`. -/
inductive StatusType where
  | applied
  | applyFailed
  | deleted
  | deleteFailed
deriving Repr, DecidableEq

/-- Modelled from the spec: `client.PostStatusEntry` (not under src) — the
discriminated result of one item's apply/delete, carrying the status kind
and the applied item's identity fields, read by the manager's harvesting
callback through `GetAPIVersion`/`GetKind`/`GetName`/`GetUID`. -/
structure PostStatusEntry where
  statusType : StatusType
  apiVersion : String
  kind : String
  name : String
  uid : String
deriving Repr, DecidableEq

/-- `unstructured.Unstructured`, restricted to the fields the code reads or
writes: the name, the label map, the owner references and an opaque
`content` field standing for the remainder of the underlying object map. -/
structure Unstructured where
  name : String
  labels : List (String × String)
  ownerReferences : List OwnerReference
  content : String
deriving Repr, DecidableEq

/-- The opaque `interface\x7b\x7d` value handed to a callback: either a
`client.PostStatusEntry` (post callbacks) or a pointer to the pending item
(pre callbacks). -/
inductive CbValue where
  | statusEntry (entry : PostStatusEntry)
  | item (u : Unstructured)
deriving Repr, DecidableEq

/-- A user callback `func(interface\x7b\x7d, error) error`. -/
abbrev Callback := CbValue → Option Err → Option Err

/-- `operator.Callbacks`: the ordered pre and post hook lists. -/
structure Callbacks where
  pre : List Callback
  post : List Callback

/-- Modelled from the spec: `fireCallbacks` (operator package, not under
src) invokes the chain in order, threading the error value through each
callback — each callback receives the value and the error returned by its
predecessor, and the final error is returned. -/
def fireCallbacks (v : CbValue) (e : Option Err) (cbs : List Callback) : Option Err :=
  cbs.foldl (fun acc cb => cb v acc) e

/-- A manager-side post callback: the harvesting callback closes over a
mutable `OwnerReferenceList`, modelled by threading the accumulator
explicitly. -/
abbrev AccCallback := CbValue → Option Err → List OwnerReference →
  Option Err × List OwnerReference

/-- A user callback never touches the harvested accumulator. -/
def liftCb (cb : Callback) : AccCallback := fun v e acc => (cb v e, acc)

/-- The error message of `errors.New` in `ownerReferenceCallback`
(`manager.go`). -/
def parseErrMsg : Err := "can't parse interface\x7b\x7d to StatusEntry interface"

/-- The closure built by `manager.ownerReferenceCallback` (`manager.go`):
type-assert the value to a status entry (failing with `parseErrMsg`
otherwise); when the incoming error is `nil` and the status kind is neither
`ApplyFailed` nor `DeleteFailed`, append the entry's identity to the
accumulator; return the incoming error unchanged. -/
def ownerRefCb : AccCallback := fun v e acc =>
  match v with
  | .statusEntry entry =>
      if e = none ∧ entry.statusType ≠ .applyFailed ∧ entry.statusType ≠ .deleteFailed then
        (e, acc ++ [⟨entry.apiVersion, entry.kind, entry.name, entry.uid⟩])
      else
        (e, acc)
  | .item _ => (some parseErrMsg, acc)

/-- Fire a manager-side post chain, threading error and accumulator. -/
def fireAccCallbacks (v : CbValue) (e : Option Err) (cbs : List AccCallback)
    (acc : List OwnerReference) : Option Err × List OwnerReference :=
  cbs.foldl (fun p cb => cb v p.1 p.2) (e, acc)

/-- Modelled from the spec: the `manager.Options.OnError` policy type (the
manager's options file is not under src); the spec names `StopOnError`
(default) and `PurgeOnError`. -/
inductive OnError where
  | stopOnError
  | purgeOnError
deriving Repr, DecidableEq

/-- Modelled from the spec: `manager.Options` (not under src); the fields
are exactly those `manager.go` reads: `DryRun`, `SetOwnerReferences`,
`OnError` and `Callbacks`. -/
structure Options where
  dryRun : Bool
  setOwnerReferences : Bool
  onError : OnError
  callbacks : Callbacks

/-- `manager.getDryRunFlag` (`manager.go`): an empty flag list, or the
single `metav1.DryRunAll` marker (the string `"All"`). -/
def getDryRunFlag (dryRun : Bool) : List String :=
  if dryRun then ["All"] else []

/-- A Go `context.Context`, abstracted to whether it is the fresh
`context.Background()` or some caller-supplied context (which may be
cancelled). -/
inductive Ctx where
  | background
  | caller (cancelled : Bool)
deriving Repr, DecidableEq

/-- Modelled from the spec: a generic `operator.Operator` as the manager
sees it (src only holds one concrete implementation).  Per the spec, an
operator's side effects are mediated entirely through the callback chain:
its `Apply` fires the post chain once per processed item with that item's
result value and remote error, aborting when the chain returns an error;
`preErr` models a failure before any item is processed and `deleteErr` the
outcome of its `Delete`. -/
structure OperatorSpec where
  id : Nat
  preErr : Option Err
  itemResults : List (CbValue × Option Err)
  deleteErr : Option Err

/-- Run the post chain over each processed item in order, threading the
harvest accumulator; the first error returned by the chain aborts the
remaining items and becomes the operator's error. -/
def runItems (post : List AccCallback) :
    List (CbValue × Option Err) → List OwnerReference → Option Err × List OwnerReference
  | [], acc => (none, acc)
  | (v, e) :: rest, acc =>
      let r := fireAccCallbacks v e post acc
      match r.1 with
      | some err => (some err, r.2)
      | none => runItems post rest r.2

/-- An abstract operator's `Apply`, given the effective post chain. -/
def opApply (o : OperatorSpec) (post : List AccCallback) :
    Option Err × List OwnerReference :=
  match o.preErr with
  | some e => (some e, [])
  | none => runItems post o.itemResults []

/-- `operator.DeleteOptions`, flattened: deletion propagation mode, the
dry-run flags and the callbacks. -/
structure DeleteOptions where
  deletionPropagation : String
  dryRun : List String
  callbacks : Callbacks

/-- One observable call the manager makes on an operator. -/
inductive Event where
  | applyCall (id : Nat) (ctx : Ctx) (references : List OwnerReference) (dryRun : List String)
  | deleteCall (id : Nat) (ctx : Ctx) (opts : DeleteOptions)

/-- The owner references an `Apply` invocation received, if the event is an
apply. -/
def Event.receivedRefs : Event → Option (List OwnerReference)
  | .applyCall _ _ refs _ => some refs
  | .deleteCall _ _ _ => none

/-- Whether the event is a `Delete` invocation. -/
def Event.isDelete : Event → Bool
  | .applyCall _ _ _ _ => false
  | .deleteCall _ _ _ => true

/-- The effective post chain `useOperator` hands the operator: the caller's
post callbacks, with the harvesting callback appended when
`SetOwnerReferences` is set (`manager.ownerReferenceCallback` appends to
`callbacks.Post`). -/
def wrapCallbacks (options : Options) : List AccCallback :=
  if options.setOwnerReferences then
    options.callbacks.post.map liftCb ++ [ownerRefCb]
  else
    options.callbacks.post.map liftCb

/-- Result of `manager.useOperator`: the harvested references, the error,
and the operator invocations performed. -/
structure UseResult where
  refs : List OwnerReference
  err : Option Err
  events : List Event

/-- `manager.useOperator` (`manager.go`): a `nil` operator yields no
references, no error and no call; otherwise the operator's `Apply` is
invoked with the inherited references, the dry-run flags and the (possibly
wrapped) callbacks, and the freshly harvested references are returned
together with the apply error. -/
def useOperator (ctx : Ctx) (opr : Option OperatorSpec) (options : Options)
    (references : List OwnerReference) : UseResult :=
  match opr with
  | none => ⟨[], none, []⟩
  | some o =>
      let r := opApply o (wrapCallbacks options)
      ⟨r.2, r.1, [.applyCall o.id ctx references (getDryRunFlag options.dryRun)]⟩

/-- Outcome of a manager phase: its error and the operator calls made. -/
structure RunResult where
  err : Option Err
  events : List Event

/-- The child loop of `manager.manageOperators`: apply each child in list
order with the parent's harvested references, aborting on the first
error. -/
def manageChildren (ctx : Ctx) (options : Options) (refs : List OwnerReference) :
    List (Option OperatorSpec) → RunResult
  | [] => ⟨none, []⟩
  | c :: rest =>
      let u := useOperator ctx c options refs
      match u.err with
      | some e => ⟨some e, u.events⟩
      | none =>
          let r := manageChildren ctx options refs rest
          ⟨r.err, u.events ++ r.events⟩

/-- The forest: parent operators each with an ordered child list.  The Go
source stores this as a map with distinct keys and iterates it in an
unspecified order; the model fixes one iteration order as a list of
entries. -/
abbrev Forest := List (Option OperatorSpec × List (Option OperatorSpec))

/-- `manager.manageOperators` (`manager.go`): for each forest entry, apply
the parent with no inherited references; on success apply its children with
the harvested references; the first error at either level aborts the whole
walk. -/
def manageOperators (ctx : Ctx) (options : Options) : Forest → RunResult
  | [] => ⟨none, []⟩
  | (parent, children) :: rest =>
      let u := useOperator ctx parent options []
      match u.err with
      | some e => ⟨some e, u.events⟩
      | none =>
          let rc := manageChildren ctx options u.refs children
          match rc.err with
          | some e => ⟨some e, u.events ++ rc.events⟩
          | none =>
              let rr := manageOperators ctx options rest
              ⟨rr.err, u.events ++ rc.events ++ rr.events⟩

/-- An abstract operator's `Delete`: its outcome and the observable call. -/
def opDelete (o : OperatorSpec) (ctx : Ctx) (opts : DeleteOptions) :
    Option Err × Event :=
  (o.deleteErr, .deleteCall o.id ctx opts)

/-- The delete options `purgeParents` builds: foreground propagation, the
same dry-run flag computation as apply, and the caller's original
callbacks. -/
def purgeDeleteOptions (options : Options) : DeleteOptions :=
  ⟨"Foreground", getDryRunFlag options.dryRun, options.callbacks⟩

/-- `manager.purgeParents` (`manager.go`): delete every non-`nil` parent
with `purgeDeleteOptions`, under `context.Background()`; the result of each
`Delete` is discarded (`_ = opr.Delete(...)`). -/
def purgeParents (options : Options) (forest : Forest) : List Event :=
  forest.filterMap fun pc =>
    pc.1.map fun o => (opDelete o .background (purgeDeleteOptions options)).2

/-- `manager.Do` (`manager.go`): run the forest; on error, purge the
parents first when the policy is `PurgeOnError`, then return the original
error. -/
def managerDo (ctx : Ctx) (options : Options) (forest : Forest) : RunResult :=
  let r := manageOperators ctx options forest
  match r.err with
  | some e =>
      match options.onError with
      | .purgeOnError => ⟨some e, r.events ++ purgeParents options forest⟩
      | .stopOnError => ⟨some e, r.events⟩
  | none => ⟨none, r.events⟩

/-! ## Linked-items operator (`function/pkg/operator/triggers_operator.go`) -/

/-- Modelled from the spec: the generic remote client capability (the
client package is not under src) — pure response functions for list, apply
and delete. -/
structure Client where
  listRes : String → List Unstructured × Option Err
  applyRes : Unstructured → List String → Unstructured × PostStatusEntry × Option Err
  deleteRes : Unstructured → PostStatusEntry × Option Err

/-- One observable step of the linked-items operator: remote calls and
callback-chain firings. -/
inductive TEvent where
  | listCall (selector : String)
  | applyCall (name : String) (dryRun : List String)
  | deleteCall (name : String)
  | preFired (name : String)
  | postFired (name : String)
deriving Repr, DecidableEq

/-- `operator.ApplyOptions`, flattened: inherited owner references, dry-run
flags and callbacks. -/
structure ApplyOptions where
  ownerReferences : List OwnerReference
  dryRun : List String
  callbacks : Callbacks

/-- The fixed tracking-label key, `const message = "ownerID"`
(`triggers_operator.go`). -/
def message : String := "ownerID"

/-- `findOwnerID` (`triggers_operator.go`): the UID of the first owner
reference whose kind is exactly `"Function"`, with a found flag. -/
def findOwnerID : List OwnerReference → String × Bool
  | [] => ("", false)
  | ref :: rest => if ref.kind = "Function" then (ref.uid, true) else findOwnerID rest

/-- `contains` (`triggers_operator.go`): whether an item of that name is in
the slice. -/
def containsName (s : List Unstructured) (name : String) : Bool :=
  s.any fun u => u.name = name

/-- One Go map assignment `l[k] = v` on a label map modelled as an
association list: replace the binding of `k`, or append one. -/
def mapInsert : List (String × String) → String → String → List (String × String)
  | [], k, v => [(k, v)]
  | p :: rest, k, v => if p.1 = k then (k, v) :: rest else p :: mapInsert rest k v

/-- `mergeMap` (`triggers_operator.go`): a `nil` left map yields the right
map; otherwise every binding of the right map is assigned into the left
map, which is returned. -/
def mergeMap (l r : List (String × String)) : List (String × String) :=
  if l = [] then r
  else r.foldl (fun acc p => mapInsert acc p.1 p.2) l

/-- Label lookup, `m[k]` on the association-list model of a Go map. -/
def lookupL : List (String × String) → String → Option String
  | [], _ => none
  | p :: rest, k => if p.1 = k then some p.2 else lookupL rest k

/-- Go's `nil`-coalescing read used to state merge semantics: the first
operand when present, the second otherwise. -/
def orO (a b : Option String) : Option String :=
  match a with
  | some v => some v
  | none => b

/-- The mutations `Apply` performs on an item before firing its pre
callbacks: `u.SetOwnerReferences(opts.OwnerReferences)` and
`u.SetLabels(mergeMap(u.GetLabels(), \x7bmessage: ownerID\x7d))`.  Because the
range variable shares its underlying object map with the stored slice
element, these writes are visible in the operator's item list. -/
def pendingItem (refs : List OwnerReference) (ownerID : String)
    (u : Unstructured) : Unstructured :=
  { u with ownerReferences := refs
           labels := mergeMap u.labels [(message, ownerID)] }

/-- The wipe's delete loop: delete every previously-applied item whose name
is not in the desired set, aborting on the first delete error. -/
def wipeLoop (c : Client) (items : List Unstructured) :
    List Unstructured → Option Err × List TEvent
  | [] => (none, [])
  | u :: rest =>
      if containsName items u.name then wipeLoop c items rest
      else
        match (c.deleteRes u).2 with
        | some e => (some e, [.deleteCall u.name])
        | none =>
            let r := wipeLoop c items rest
            (r.1, .deleteCall u.name :: r.2)

/-- Modelled from the spec: `wipeRemoved` (operator package, not under src)
lists the previously-applied items carrying the owner-id tracking label and
deletes those whose identity is no longer present in the desired set (a
set-difference on item name, using `containsName`), returning the first
error encountered. -/
def wipeRemoved (c : Client) (items : List Unstructured) (ownerID : String) :
    Option Err × List TEvent :=
  let sel := message ++ "=" ++ ownerID
  match (c.listRes sel).2 with
  | some e => (some e, [.listCall sel])
  | none =>
      let r := wipeLoop c items (c.listRes sel).1
      (r.1, .listCall sel :: r.2)

/-- The per-item loop of `triggersOperator.Apply` (`triggers_operator.go`).
The receiver is a value and the loop variable `u` a copy of the slice
element sharing its underlying object map: the owner-reference and label
writes of `pendingItem` reach the stored element, while the final
`u.SetUnstructuredContent(new1.Object)` rebinds only the copy's map
reference, so the server-returned document never reaches the stored
element.  Returns the error, the operator's item list as observable after
the call, and the event trace. -/
def applyLoop (c : Client) (opts : ApplyOptions) (ownerID : String) :
    List Unstructured → Option Err × List Unstructured × List TEvent
  | [] => (none, [], [])
  | u :: rest =>
      let u2 := pendingItem opts.ownerReferences ownerID u
      match fireCallbacks (.item u2) none opts.callbacks.pre with
      | some e => (some e, u2 :: rest, [.preFired u2.name])
      | none =>
          let applied := c.applyRes u2 opts.dryRun
          match fireCallbacks (.statusEntry applied.2.1) applied.2.2 opts.callbacks.post with
          | some e =>
              (some e, u2 :: rest,
                [.preFired u2.name, .applyCall u2.name opts.dryRun, .postFired u2.name])
          | none =>
              let r := applyLoop c opts ownerID rest
              (r.1, u2 :: r.2.1,
                .preFired u2.name :: .applyCall u2.name opts.dryRun ::
                  .postFired u2.name :: r.2.2)

/-- The not-found error of `triggersOperator.Apply`:
`errors.Wrap(errNotFound, message)` renders as `"ownerID: not found"`. -/
def notFoundErr : Err := message ++ ": not found"

/-- `triggersOperator.Apply` (`triggers_operator.go`): find the owning
UID among the inherited references (failing with the wrapped not-found
error), wipe removed items, then run the per-item apply loop. -/
def triggersApply (c : Client) (items : List Unstructured) (opts : ApplyOptions) :
    Option Err × List Unstructured × List TEvent :=
  let fo := findOwnerID opts.ownerReferences
  if fo.2 then
    let w := wipeRemoved c items fo.1
    match w.1 with
    | some e => (some e, items, w.2)
    | none =>
        let r := applyLoop c opts fo.1 items
        (r.1, r.2.1, w.2 ++ r.2.2)
  else
    (some notFoundErr, items, [])

/-- The per-item loop of `triggersOperator.Delete`
(`triggers_operator.go`): fire pre callbacks with the item, perform the
remote delete, fire post callbacks with the status entry and the delete
error; abort on the first error. -/
def deleteLoop (c : Client) (cbs : Callbacks) :
    List Unstructured → Option Err × List TEvent
  | [] => (none, [])
  | u :: rest =>
      match fireCallbacks (.item u) none cbs.pre with
      | some e => (some e, [.preFired u.name])
      | none =>
          let res := c.deleteRes u
          match fireCallbacks (.statusEntry res.1) res.2 cbs.post with
          | some e => (some e, [.preFired u.name, .deleteCall u.name, .postFired u.name])
          | none =>
              let r := deleteLoop c cbs rest
              (r.1, .preFired u.name :: .deleteCall u.name :: .postFired u.name :: r.2)

/-- `triggersOperator.Delete` (`triggers_operator.go`). -/
def triggersDelete (c : Client) (items : List Unstructured) (opts : DeleteOptions) :
    Option Err × List TEvent :=
  deleteLoop c opts.callbacks items

/-- The owner reference the harvesting callback would record for one
processed item, if any: the identity fields of a status entry whose kind is
neither `ApplyFailed` nor `DeleteFailed`.  The error component plays no
role: on a successful apply every item's threaded error is `nil` by the
time the harvesting callback (last in the chain) runs. -/
def harvestOf : CbValue × Option Err → Option OwnerReference
  | (.statusEntry entry, _) =>
      if entry.statusType ≠ .applyFailed ∧ entry.statusType ≠ .deleteFailed then
        some ⟨entry.apiVersion, entry.kind, entry.name, entry.uid⟩
      else none
  | (.item _, _) => none

/-! ## Concrete instances used to exercise the theorems -/

def noCallbacks : Callbacks := ⟨[], []⟩

def optsSOR : Options := ⟨false, true, .stopOnError, noCallbacks⟩

def optsStop : Options := ⟨false, false, .stopOnError, noCallbacks⟩

def optsPurge : Options := ⟨true, false, .purgeOnError, noCallbacks⟩

def entryOk : PostStatusEntry := ⟨.applied, "v1", "Function", "fn", "u1"⟩

def entryFail : PostStatusEntry := ⟨.applyFailed, "v1", "Trigger", "tr", "u2"⟩

def oPar : OperatorSpec :=
  ⟨1, none, [(.statusEntry entryOk, none), (.statusEntry entryFail, none)], none⟩

def oBad : OperatorSpec := ⟨2, some "boom", [], none⟩

def oOk : OperatorSpec := ⟨3, none, [], none⟩

def trigItem : Unstructured := ⟨"t1", [("keep", "v")], [], "local-content"⟩

def serverItem : Unstructured := ⟨"t1", [("srv", "x")], [], "server-content"⟩

def bugClient : Client :=
  ⟨fun _ => ([], none),
   fun _ _ => (serverItem, ⟨.applied, "v1", "Trigger", "t1", "tu"⟩, none),
   fun _ => (⟨.deleted, "v1", "Trigger", "t1", "tu"⟩, none)⟩

def failClient : Client :=
  ⟨fun _ => ([], none),
   fun _ _ => (serverItem, entryFail, some "apply failed"),
   fun _ => (⟨.deleteFailed, "v1", "Trigger", "t1", "tu"⟩, some "delete failed")⟩

def fnRefs : List OwnerReference := [⟨"v1", "Function", "fn", "fu"⟩]

def bugOpts : ApplyOptions := ⟨fnRefs, [], noCallbacks⟩

/-! ## Helper lemmas -/

lemma fireCallbacks_nil (v : CbValue) (e : Option Err) : fireCallbacks v e [] = e := rfl

lemma findOwnerID_of_no_function (refs : List OwnerReference)
    (h : ∀ ref ∈ refs, ref.kind ≠ "Function") : findOwnerID refs = ("", false) := by
  induction refs with
  | nil => rfl
  | cons ref rest ih =>
      have hk : ref.kind ≠ "Function" := h ref (List.mem_cons_self _ _)
      simp only [findOwnerID, if_neg hk]
      exact ih fun x hx => h x (List.mem_cons_of_mem _ hx)

lemma findOwnerID_append (front rest : List OwnerReference)
    (h : ∀ x ∈ front, x.kind ≠ "Function") :
    findOwnerID (front ++ rest) = findOwnerID rest := by
  induction front with
  | nil => rfl
  | cons x xs ih =>
      have hk : x.kind ≠ "Function" := h x (List.mem_cons_self _ _)
      simp only [List.cons_append, findOwnerID, if_neg hk]
      exact ih fun y hy => h y (List.mem_cons_of_mem _ hy)

lemma lookupL_mapInsert (m : List (String × String)) (k v k' : String) :
    lookupL (mapInsert m k v) k' = if k = k' then some v else lookupL m k' := by
  induction m with
  | nil => simp [mapInsert, lookupL]
  | cons p rest ih =>
      by_cases hp : p.1 = k
      · simp only [mapInsert, if_pos hp]
        by_cases h : k = k'
        · simp [lookupL, h]
        · have hpk : ¬p.1 = k' := fun hh => h (hp.symm.trans hh)
          simp [lookupL, h, hpk]
      · simp only [mapInsert, if_neg hp]
        by_cases hq : p.1 = k'
        · have h : ¬k = k' := fun hh => hp (hq.trans hh.symm)
          simp [lookupL, hq, h]
        · simp [lookupL, hq, ih]

lemma lookupL_eq_none_of_not_mem (m : List (String × String)) (k : String)
    (h : k ∉ m.map Prod.fst) : lookupL m k = none := by
  induction m with
  | nil => rfl
  | cons p rest ih =>
      simp only [List.map_cons, List.mem_cons] at h
      push_neg at h
      have : p.1 ≠ k := fun hh => h.1 hh.symm
      simp [lookupL, this, ih h.2]

lemma foldl_mapInsert_lookup (r : List (String × String))
    (hr : (r.map Prod.fst).Nodup) (l : List (String × String)) (k : String) :
    lookupL (r.foldl (fun acc p => mapInsert acc p.1 p.2) l) k =
      orO (lookupL r k) (lookupL l k) := by
  induction r generalizing l with
  | nil => cases h : lookupL l k <;> simp [orO, lookupL, h]
  | cons p rest ih =>
      simp only [List.map_cons, List.nodup_cons] at hr
      simp only [List.foldl_cons]
      rw [ih hr.2, lookupL_mapInsert]
      simp only [lookupL]
      by_cases hk : p.1 = k
      · have hnone : lookupL rest k = none :=
          lookupL_eq_none_of_not_mem _ _ (hk ▸ hr.1)
        rw [if_pos hk, if_pos hk, hnone]
        simp [orO]
      · rw [if_neg hk, if_neg hk]

lemma mergeMap_lookup (l r : List (String × String))
    (hr : (r.map Prod.fst).Nodup) (k : String) :
    lookupL (mergeMap l r) k = orO (lookupL r k) (lookupL l k) := by
  by_cases hl : l = []
  · subst hl
    cases h : lookupL r k <;> simp [mergeMap, orO, lookupL, h]
  · rw [mergeMap, if_neg hl]
    exact foldl_mapInsert_lookup r hr l k

lemma lookup_pendingItem (refs : List OwnerReference) (ownerID : String)
    (u : Unstructured) (k : String) :
    lookupL (pendingItem refs ownerID u).labels k =
      if k = message then some ownerID else lookupL u.labels k := by
  have hnd : ([(message, ownerID)].map Prod.fst).Nodup := by simp
  show lookupL (mergeMap u.labels [(message, ownerID)]) k = _
  rw [mergeMap_lookup _ _ hnd]
  by_cases hk : k = message
  · subst hk
    simp [lookupL, orO]
  · have hmk : ¬message = k := fun h => hk h.symm
    simp [lookupL, orO, hmk, hk]

lemma applyLoop_surfaces_err (c : Client) (opts : ApplyOptions) (ownerID : String)
    (hpre : opts.callbacks.pre = []) (hpost : opts.callbacks.post = []) :
    ∀ (front : List Unstructured) (u : Unstructured) (rest : List Unstructured) (e : Err),
      (∀ v ∈ front,
        (c.applyRes (pendingItem opts.ownerReferences ownerID v) opts.dryRun).2.2 = none) →
      (c.applyRes (pendingItem opts.ownerReferences ownerID u) opts.dryRun).2.2 = some e →
      (applyLoop c opts ownerID (front ++ u :: rest)).1 = some e := by
  intro front
  induction front with
  | nil =>
      intro u rest e _ herr
      simp only [List.nil_append, applyLoop, hpre, hpost, fireCallbacks, List.foldl_nil]
      rw [herr]
  | cons v front ih =>
      intro u rest e hfront herr
      have hv := hfront v (List.mem_cons_self _ _)
      simp only [List.cons_append, applyLoop, hpre, hpost, fireCallbacks, List.foldl_nil]
      rw [hv]
      exact ih u rest e (fun x hx => hfront x (List.mem_cons_of_mem _ hx)) herr

lemma deleteLoop_surfaces_err (c : Client) (cbs : Callbacks)
    (hpre : cbs.pre = []) (hpost : cbs.post = []) :
    ∀ (front : List Unstructured) (u : Unstructured) (rest : List Unstructured) (e : Err),
      (∀ v ∈ front, (c.deleteRes v).2 = none) →
      (c.deleteRes u).2 = some e →
      (deleteLoop c cbs (front ++ u :: rest)).1 = some e := by
  intro front
  induction front with
  | nil =>
      intro u rest e _ herr
      simp only [List.nil_append, deleteLoop, hpre, hpost, fireCallbacks, List.foldl_nil]
      rw [herr]
  | cons v front ih =>
      intro u rest e hfront herr
      have hv := hfront v (List.mem_cons_self _ _)
      simp only [List.cons_append, deleteLoop, hpre, hpost, fireCallbacks, List.foldl_nil]
      rw [hv]
      exact ih u rest e (fun x hx => hfront x (List.mem_cons_of_mem _ hx)) herr

lemma fireAcc_lift (v : CbValue) (cbs : List Callback) :
    ∀ (e : Option Err) (acc : List OwnerReference),
      fireAccCallbacks v e (cbs.map liftCb) acc = (fireCallbacks v e cbs, acc) := by
  induction cbs with
  | nil =>
      intro e acc
      rfl
  | cons cb rest ih =>
      intro e acc
      have h := ih (cb v e) acc
      simp only [fireAccCallbacks, fireCallbacks, List.map_cons, List.foldl_cons, liftCb] at h ⊢
      exact h

lemma fireAcc_wrap (user : List Callback) (v : CbValue) (e : Option Err)
    (acc : List OwnerReference) :
    fireAccCallbacks v e (user.map liftCb ++ [ownerRefCb]) acc =
      ownerRefCb v (fireCallbacks v e user) acc := by
  have h := fireAcc_lift v user e acc
  simp only [fireAccCallbacks] at h ⊢
  rw [List.foldl_append, h]
  rfl

lemma runItems_lift_acc (user : List Callback) :
    ∀ (items : List (CbValue × Option Err)) (acc : List OwnerReference),
      (runItems (user.map liftCb) items acc).2 = acc := by
  intro items
  induction items with
  | nil =>
      intro acc
      rfl
  | cons p rest ih =>
      intro acc
      obtain ⟨v, e⟩ := p
      simp only [runItems, fireAcc_lift v user e acc]
      cases h : fireCallbacks v e user with
      | none => exact ih acc
      | some err => rfl

lemma runItems_success_harvest (user : List Callback) :
    ∀ (items : List (CbValue × Option Err)) (acc : List OwnerReference),
      (runItems (user.map liftCb ++ [ownerRefCb]) items acc).1 = none →
      (runItems (user.map liftCb ++ [ownerRefCb]) items acc).2 =
        acc ++ items.filterMap harvestOf := by
  intro items
  induction items with
  | nil =>
      intro acc _
      simp [runItems]
  | cons p rest ih =>
      intro acc hsucc
      obtain ⟨v, e⟩ := p
      cases v with
      | item u =>
          simp only [runItems, fireAcc_wrap user (.item u) e acc] at hsucc
          simp [ownerRefCb] at hsucc
      | statusEntry entry =>
          simp only [runItems, fireAcc_wrap user (.statusEntry entry) e acc] at hsucc ⊢
          cases he1 : fireCallbacks (.statusEntry entry) e user with
          | some err =>
              rw [he1] at hsucc
              simp [ownerRefCb] at hsucc
          | none =>
              rw [he1] at hsucc
              cases hst : entry.statusType with
              | applied =>
                  have hcb : ownerRefCb (.statusEntry entry) none acc =
                      (none, acc ++ [⟨entry.apiVersion, entry.kind, entry.name, entry.uid⟩]) := by
                    simp [ownerRefCb, hst]
                  simp only [hcb] at hsucc ⊢
                  rw [ih _ hsucc]
                  simp [harvestOf, hst]
              | deleted =>
                  have hcb : ownerRefCb (.statusEntry entry) none acc =
                      (none, acc ++ [⟨entry.apiVersion, entry.kind, entry.name, entry.uid⟩]) := by
                    simp [ownerRefCb, hst]
                  simp only [hcb] at hsucc ⊢
                  rw [ih _ hsucc]
                  simp [harvestOf, hst]
              | applyFailed =>
                  have hcb : ownerRefCb (.statusEntry entry) none acc = (none, acc) := by
                    simp [ownerRefCb, hst]
                  simp only [hcb] at hsucc ⊢
                  rw [ih _ hsucc]
                  simp [harvestOf, hst]
              | deleteFailed =>
                  have hcb : ownerRefCb (.statusEntry entry) none acc = (none, acc) := by
                    simp [ownerRefCb, hst]
                  simp only [hcb] at hsucc ⊢
                  rw [ih _ hsucc]
                  simp [harvestOf, hst]

lemma useOperator_refs_of_not_sor (ctx : Ctx) (o : OperatorSpec) (options : Options)
    (refs : List OwnerReference) (h : options.setOwnerReferences = false) :
    (useOperator ctx (some o) options refs).refs = [] := by
  simp only [useOperator, wrapCallbacks, h, Bool.false_eq_true, if_false, opApply]
  cases hp : o.preErr with
  | some e => rfl
  | none => exact runItems_lift_acc options.callbacks.post o.itemResults []

lemma useOperator_harvest (ctx : Ctx) (o : OperatorSpec) (options : Options)
    (refs : List OwnerReference) (h : options.setOwnerReferences = true)
    (hsucc : (useOperator ctx (some o) options refs).err = none) :
    (useOperator ctx (some o) options refs).refs = o.itemResults.filterMap harvestOf := by
  simp only [useOperator, wrapCallbacks, h, if_true, opApply] at hsucc ⊢
  cases hp : o.preErr with
  | some e =>
      rw [hp] at hsucc
      simp at hsucc
  | none =>
      rw [hp] at hsucc
      have h2 := runItems_success_harvest options.callbacks.post o.itemResults [] hsucc
      simpa using h2

lemma useOperator_event_refs (ctx : Ctx) (c : Option OperatorSpec) (options : Options)
    (refs : List OwnerReference) (ev : Event)
    (h : ev ∈ (useOperator ctx c options refs).events) : ev.receivedRefs = some refs := by
  cases c with
  | none => simp [useOperator] at h
  | some o =>
      simp only [useOperator, List.mem_singleton] at h
      subst h
      rfl

lemma manageChildren_event_refs (ctx : Ctx) (options : Options)
    (refs : List OwnerReference) :
    ∀ (cs : List (Option OperatorSpec)) (ev : Event),
      ev ∈ (manageChildren ctx options refs cs).events → ev.receivedRefs = some refs := by
  intro cs
  induction cs with
  | nil =>
      intro ev h
      simp [manageChildren] at h
  | cons c rest ih =>
      intro ev h
      simp only [manageChildren] at h
      cases hu : (useOperator ctx c options refs).err with
      | some e =>
          rw [hu] at h
          exact useOperator_event_refs ctx c options refs ev h
      | none =>
          rw [hu] at h
          rcases List.mem_append.mp h with h2 | h2
          · exact useOperator_event_refs ctx c options refs ev h2
          · exact ih ev h2

lemma useOperator_event_not_delete (ctx : Ctx) (c : Option OperatorSpec)
    (options : Options) (refs : List OwnerReference) (ev : Event)
    (h : ev ∈ (useOperator ctx c options refs).events) : ev.isDelete = false := by
  cases c with
  | none => simp [useOperator] at h
  | some o =>
      simp only [useOperator, List.mem_singleton] at h
      subst h
      rfl

lemma manageChildren_no_delete (ctx : Ctx) (options : Options)
    (refs : List OwnerReference) :
    ∀ (cs : List (Option OperatorSpec)) (ev : Event),
      ev ∈ (manageChildren ctx options refs cs).events → ev.isDelete = false := by
  intro cs
  induction cs with
  | nil =>
      intro ev h
      simp [manageChildren] at h
  | cons c rest ih =>
      intro ev h
      simp only [manageChildren] at h
      cases hu : (useOperator ctx c options refs).err with
      | some e =>
          rw [hu] at h
          exact useOperator_event_not_delete ctx c options refs ev h
      | none =>
          rw [hu] at h
          rcases List.mem_append.mp h with h2 | h2
          · exact useOperator_event_not_delete ctx c options refs ev h2
          · exact ih ev h2

lemma manageOperators_no_delete (ctx : Ctx) (options : Options) :
    ∀ (forest : Forest) (ev : Event),
      ev ∈ (manageOperators ctx options forest).events → ev.isDelete = false := by
  intro forest
  induction forest with
  | nil =>
      intro ev h
      simp [manageOperators] at h
  | cons pc rest ih =>
      intro ev h
      obtain ⟨p, cs⟩ := pc
      simp only [manageOperators] at h
      cases hu : (useOperator ctx p options []).err with
      | some e =>
          rw [hu] at h
          exact useOperator_event_not_delete ctx p options [] ev h
      | none =>
          rw [hu] at h
          cases hc : (manageChildren ctx options (useOperator ctx p options []).refs cs).err with
          | some e =>
              rw [hc] at h
              rcases List.mem_append.mp h with h2 | h2
              · exact useOperator_event_not_delete ctx p options [] ev h2
              · exact manageChildren_no_delete ctx options _ cs ev h2
          | none =>
              rw [hc] at h
              rcases List.mem_append.mp h with h2 | h2
              · rcases List.mem_append.mp h2 with h3 | h3
                · exact useOperator_event_not_delete ctx p options [] ev h3
                · exact manageChildren_no_delete ctx options _ cs ev h3
              · exact ih ev h2

lemma manageChildren_success_events (ctx : Ctx) (options : Options)
    (refs : List OwnerReference) :
    ∀ cs, (manageChildren ctx options refs cs).err = none →
      (manageChildren ctx options refs cs).events =
        (cs.map fun c => (useOperator ctx c options refs).events).flatten := by
  intro cs
  induction cs with
  | nil =>
      intro _
      simp [manageChildren]
  | cons c rest ih =>
      intro h
      simp only [manageChildren] at h ⊢
      cases hu : (useOperator ctx c options refs).err with
      | some e =>
          rw [hu] at h
          simp at h
      | none =>
          rw [hu] at h
          rw [List.map_cons, List.flatten_cons, ih h]

lemma manageChildren_fail_decomp (ctx : Ctx) (options : Options)
    (refs : List OwnerReference) :
    ∀ cs e, (manageChildren ctx options refs cs).err = some e →
      ∃ front c' back, cs = front ++ c' :: back ∧
        (∀ x ∈ front, (useOperator ctx x options refs).err = none) ∧
        (useOperator ctx c' options refs).err = some e ∧
        (manageChildren ctx options refs cs).events =
          (front.map fun c => (useOperator ctx c options refs).events).flatten ++
            (useOperator ctx c' options refs).events := by
  intro cs
  induction cs with
  | nil =>
      intro e h
      simp [manageChildren] at h
  | cons c rest ih =>
      intro e h
      cases hu : (useOperator ctx c options refs).err with
      | some e' =>
          have heq : manageChildren ctx options refs (c :: rest) =
              ⟨some e', (useOperator ctx c options refs).events⟩ := by
            simp [manageChildren, hu]
          rw [heq] at h
          simp only at h
          obtain rfl : e' = e := by
            injection h
          exact ⟨[], c, rest, rfl, by simp, hu, by rw [heq]; simp⟩
      | none =>
          have heq : manageChildren ctx options refs (c :: rest) =
              ⟨(manageChildren ctx options refs rest).err,
               (useOperator ctx c options refs).events ++
                 (manageChildren ctx options refs rest).events⟩ := by
            simp [manageChildren, hu]
          rw [heq] at h
          simp only at h
          obtain ⟨front, c', back, hcs, hfr, hc', hev⟩ := ih e h
          refine ⟨c :: front, c', back, by rw [hcs]; rfl, ?_, hc', ?_⟩
          · intro x hx
            rcases List.mem_cons.mp hx with rfl | hx
            · exact hu
            · exact hfr x hx
          · rw [heq]
            simp only [List.map_cons, List.flatten_cons, hev, List.append_assoc]

/-- C5: a remote apply or delete failure for an item is surfaced as the
operator's returned error, in particular when the options carry no
callbacks: for the first item whose remote call errs (all items before it
applied or deleted cleanly), `triggersOperator.Apply` and
`triggersOperator.Delete` return exactly that error. -/
theorem c5_remote_error_surfaced :
    (∀ (c : Client) (opts : ApplyOptions) (front : List Unstructured)
        (u : Unstructured) (rest : List Unstructured) (e : Err),
        opts.callbacks.pre = [] → opts.callbacks.post = [] →
        (findOwnerID opts.ownerReferences).2 = true →
        (wipeRemoved c (front ++ u :: rest) (findOwnerID opts.ownerReferences).1).1 = none →
        (∀ v ∈ front,
          (c.applyRes (pendingItem opts.ownerReferences
              (findOwnerID opts.ownerReferences).1 v) opts.dryRun).2.2 = none) →
        (c.applyRes (pendingItem opts.ownerReferences
            (findOwnerID opts.ownerReferences).1 u) opts.dryRun).2.2 = some e →
        (triggersApply c (front ++ u :: rest) opts).1 = some e) ∧
    (∀ (c : Client) (dopts : DeleteOptions) (front : List Unstructured)
        (u : Unstructured) (rest : List Unstructured) (e : Err),
        dopts.callbacks.pre = [] → dopts.callbacks.post = [] →
        (∀ v ∈ front, (c.deleteRes v).2 = none) →
        (c.deleteRes u).2 = some e →
        (triggersDelete c (front ++ u :: rest) dopts).1 = some e) := by
  constructor
  · intro c opts front u rest e hpre hpost hfound hwipe hfr herr
    simp only [triggersApply, hfound, if_true]
    rw [hwipe]
    exact applyLoop_surfaces_err c opts _ hpre hpost front u rest e hfr herr
  · intro c dopts front u rest e hpre hpost hfr herr
    exact deleteLoop_surfaces_err c dopts.callbacks hpre hpost front u rest e hfr herr

/-- Witness for C5: a client whose remote apply fails on the single item;
the operator returns that error even with empty callback chains. -/
theorem c5_witness :
    (triggersApply failClient [trigItem] bugOpts).1 = some "apply failed" :=
  c5_remote_error_surfaced.1 failClient bugOpts [] trigItem [] "apply failed"
    rfl rfl (by decide) (by decide) (by simp) (by decide)

/-- C6: the harvesting callback skips failed items and returns the received
error unchanged; rejects values that are not status entries with a non-nil
parse error; and otherwise appends the entry's identity and returns the
`nil` error unchanged. -/
theorem c6_owner_reference_callback_cases :
    (∀ (entry : PostStatusEntry) (e : Option Err) (acc : List OwnerReference),
        e ≠ none ∨ entry.statusType = .applyFailed ∨ entry.statusType = .deleteFailed →
        ownerRefCb (.statusEntry entry) e acc = (e, acc)) ∧
    (∀ (u : Unstructured) (e : Option Err) (acc : List OwnerReference),
        ownerRefCb (.item u) e acc = (some parseErrMsg, acc)) ∧
    (∀ (entry : PostStatusEntry) (acc : List OwnerReference),
        entry.statusType ≠ .applyFailed → entry.statusType ≠ .deleteFailed →
        ownerRefCb (.statusEntry entry) none acc =
          (none, acc ++ [⟨entry.apiVersion, entry.kind, entry.name, entry.uid⟩])) := by
  refine ⟨?_, ?_, ?_⟩
  · intro entry e acc h
    have hneg : ¬(e = none ∧ entry.statusType ≠ .applyFailed ∧
        entry.statusType ≠ .deleteFailed) := by
      rcases h with h | h | h
      · exact fun hc => h hc.1
      · exact fun hc => hc.2.1 h
      · exact fun hc => hc.2.2 h
    simp [ownerRefCb, hneg]
  · intro u e acc
    rfl
  · intro entry acc h1 h2
    simp [ownerRefCb, h1, h2]

/-- Witness for C6: a successful `Applied` entry with a `nil` error is
harvested. -/
theorem c6_witness :
    ownerRefCb (.statusEntry entryOk) none [] =
      (none, [⟨"v1", "Function", "fn", "u1"⟩]) :=
  c6_owner_reference_callback_cases.2.2 entryOk [] (by decide) (by decide)

/-- C7: with no inherited owner reference of kind `"Function"` (in
particular with an empty list), `triggersOperator.Apply` returns the
wrapped not-found error, leaves the items untouched, and performs no remote
call and no callback firing (an empty event trace). -/
theorem c7_apply_without_owner_kind (c : Client) (items : List Unstructured)
    (opts : ApplyOptions) (h : ∀ ref ∈ opts.ownerReferences, ref.kind ≠ "Function") :
    triggersApply c items opts = (some notFoundErr, items, []) := by
  have hf := findOwnerID_of_no_function opts.ownerReferences h
  simp [triggersApply, hf]

/-- Witness for C7: the empty owner-reference list. -/
theorem c7_witness :
    triggersApply failClient [trigItem] ⟨[], [], noCallbacks⟩ =
      (some notFoundErr, [trigItem], []) :=
  c7_apply_without_owner_kind failClient [trigItem] _ (by simp)

/-- C8 (code bug): on a successful apply the operator's stored item list
keeps the locally-built item (`pendingItem`: labels and owner references
updated through the shared object map) and never receives the
server-returned content — `u.SetUnstructuredContent(new1.Object)` rebinds
only the range-loop copy.  At this input the apply succeeds, the server
returned `"server-content"`, yet the stored item still carries
`"local-content"`. -/
theorem c8_server_content_not_stored :
    (triggersApply bugClient [trigItem] bugOpts).1 = none ∧
    (triggersApply bugClient [trigItem] bugOpts).2.1 =
      [pendingItem fnRefs "fu" trigItem] ∧
    (pendingItem fnRefs "fu" trigItem).content = "local-content" ∧
    (bugClient.applyRes (pendingItem fnRefs "fu" trigItem) []).1.content =
      "server-content" :=
  ⟨rfl, rfl, rfl, rfl⟩

/-- C9: `mergeMap` binds every key of the desired map to the desired value
and keeps existing bindings for keys only in the existing map; applied in
`Apply`, the tracking label `message` is set to the owner's identifier and
all other labels are retained. -/
theorem c9_merge_semantics :
    (∀ (l r : List (String × String)), (r.map Prod.fst).Nodup → ∀ k,
        lookupL (mergeMap l r) k = orO (lookupL r k) (lookupL l k)) ∧
    (∀ (refs : List OwnerReference) (ownerID : String) (u : Unstructured),
        lookupL (pendingItem refs ownerID u).labels message = some ownerID ∧
        ∀ k, k ≠ message →
          lookupL (pendingItem refs ownerID u).labels k = lookupL u.labels k) := by
  refine ⟨fun l r hr k => mergeMap_lookup l r hr k, fun refs ownerID u => ⟨?_, ?_⟩⟩
  · rw [lookup_pendingItem]
    simp
  · intro k hk
    rw [lookup_pendingItem, if_neg hk]

/-- Witness for C9: merging the tracking label overwrites the old binding
of the same key and keeps the other label. -/
theorem c9_witness :
    lookupL (mergeMap [("keep", "v"), ("ownerID", "old")] [("ownerID", "fu")]) "ownerID" =
      some "fu" ∧
    lookupL (mergeMap [("keep", "v"), ("ownerID", "old")] [("ownerID", "fu")]) "keep" =
      some "v" :=
  ⟨(c9_merge_semantics.1 [("keep", "v"), ("ownerID", "old")] [("ownerID", "fu")]
      (by decide) "ownerID").trans (by decide),
   (c9_merge_semantics.1 [("keep", "v"), ("ownerID", "old")] [("ownerID", "fu")]
      (by decide) "keep").trans (by decide)⟩

/-- C10: the owner identifier is the UID of the first reference whose kind
is exactly `"Function"`; references of any other kind are skipped, later
`"Function"` references are ignored, and that UID is the value `Apply`
writes under the tracking label. -/
theorem c10_first_function_uid (front : List OwnerReference) (r : OwnerReference)
    (rest : List OwnerReference) (hfront : ∀ x ∈ front, x.kind ≠ "Function")
    (hr : r.kind = "Function") :
    findOwnerID (front ++ r :: rest) = (r.uid, true) ∧
    ∀ u : Unstructured,
      lookupL (pendingItem (front ++ r :: rest)
          (findOwnerID (front ++ r :: rest)).1 u).labels message = some r.uid := by
  have h1 : findOwnerID (front ++ r :: rest) = (r.uid, true) := by
    rw [findOwnerID_append front _ hfront]
    simp [findOwnerID, hr]
  refine ⟨h1, fun u => ?_⟩
  rw [lookup_pendingItem]
  simp [h1]

/-- Witness for C10: a lower-case `"function"` kind is skipped
(case-sensitive match) and only the first `"Function"` reference's UID is
used when several are present. -/
theorem c10_witness :
    findOwnerID [⟨"v1", "function", "x", "wrong"⟩, ⟨"v1", "Function", "fn", "right"⟩,
        ⟨"v1", "Function", "g", "later"⟩] = ("right", true) :=
  (c10_first_function_uid [⟨"v1", "function", "x", "wrong"⟩]
      ⟨"v1", "Function", "fn", "right"⟩ [⟨"v1", "Function", "g", "later"⟩]
      (by decide) rfl).1

/-! ## Claims about the orchestration manager -/

/-- C1: when `SetOwnerReferences` is false the parent's harvested list is
empty and every child apply receives the empty owner-reference list,
whether or not the parent succeeded; when it is true and the parent's apply
succeeds, the harvested list is exactly the identity of each non-failed
status entry in item order, and every child apply receives exactly that
list. -/
theorem c1_owner_reference_propagation (o : OperatorSpec)
    (cs : List (Option OperatorSpec)) (ctx : Ctx) (options : Options) :
    (options.setOwnerReferences = false →
        (useOperator ctx (some o) options []).refs = [] ∧
        ∀ ev ∈ (manageChildren ctx options
            (useOperator ctx (some o) options []).refs cs).events,
          ev.receivedRefs = some []) ∧
    (options.setOwnerReferences = true →
        (useOperator ctx (some o) options []).err = none →
        (useOperator ctx (some o) options []).refs = o.itemResults.filterMap harvestOf ∧
        ∀ ev ∈ (manageChildren ctx options
            (useOperator ctx (some o) options []).refs cs).events,
          ev.receivedRefs = some (o.itemResults.filterMap harvestOf)) := by
  constructor
  · intro h
    have hr := useOperator_refs_of_not_sor ctx o options [] h
    refine ⟨hr, fun ev hev => ?_⟩
    have h2 := manageChildren_event_refs ctx options _ cs ev hev
    rwa [hr] at h2
  · intro h hsucc
    have hr := useOperator_harvest ctx o options [] h hsucc
    refine ⟨hr, fun ev hev => ?_⟩
    have h2 := manageChildren_event_refs ctx options _ cs ev hev
    rwa [hr] at h2

/-- Witness for C1: a parent whose two items produce one `Applied` and one
`ApplyFailed` status entry harvests exactly the first item's identity. -/
theorem c1_witness :
    (useOperator .background (some oPar) optsSOR []).refs =
      [⟨"v1", "Function", "fn", "u1"⟩] :=
  (((c1_owner_reference_propagation oPar [] .background optsSOR).2 rfl
      (by decide)).1).trans (by decide)

/-- C2: `Do` returns exactly the error of the forest walk; with
`PurgeOnError` the purge events are appended after the walk's events while
the returned error is unchanged; with `StopOnError` no delete is ever
issued and the triggering error is returned directly. -/
theorem c2_do_returns_original_error (ctx : Ctx) (options : Options) (forest : Forest) :
    (managerDo ctx options forest).err = (manageOperators ctx options forest).err ∧
    (options.onError = .purgeOnError →
        (manageOperators ctx options forest).err ≠ none →
        (managerDo ctx options forest).events =
          (manageOperators ctx options forest).events ++ purgeParents options forest) ∧
    (options.onError = .stopOnError →
        (managerDo ctx options forest).events =
          (manageOperators ctx options forest).events ∧
        ∀ ev ∈ (managerDo ctx options forest).events, ev.isDelete = false) := by
  cases hm : (manageOperators ctx options forest).err with
  | none =>
      refine ⟨by simp [managerDo, hm], fun _ hne => absurd rfl hne, fun _ => ⟨?_, ?_⟩⟩
      · simp [managerDo, hm]
      · intro ev hev
        apply manageOperators_no_delete ctx options forest ev
        simpa [managerDo, hm] using hev
  | some e =>
      cases ho : options.onError with
      | purgeOnError =>
          refine ⟨by simp [managerDo, hm, ho], fun _ _ => by simp [managerDo, hm, ho],
            fun hst => ?_⟩
          simp at hst
      | stopOnError =>
          refine ⟨by simp [managerDo, hm, ho], fun hp => by simp at hp, fun _ => ⟨?_, ?_⟩⟩
          · simp [managerDo, hm, ho]
          · intro ev hev
            apply manageOperators_no_delete ctx options forest ev
            simpa [managerDo, hm, ho] using hev

/-- Witness for C2: a failing parent under `StopOnError` — the original
error is returned and the event trace is exactly the walk's (no purge). -/
theorem c2_witness :
    (managerDo .background optsStop [(some oBad, [some oOk])]).err = some "boom" ∧
    (managerDo .background optsStop [(some oBad, [some oOk])]).events =
      (manageOperators .background optsStop [(some oBad, [some oOk])]).events := by
  have h := c2_do_returns_original_error .background optsStop [(some oBad, [some oOk])]
  exact ⟨h.1.trans (by decide), (h.2.2 rfl).1⟩

/-- C3: within one forest entry the parent is applied first; if it fails
the entry contributes only the parent's apply and nothing further (no
child, no later entry) is processed; on parent success the children run in
child-list order with the harvested references, the walk continuing past
the entry only when every child succeeded, and a failing child cuts the
trace after itself. -/
theorem c3_parent_before_children (ctx : Ctx) (options : Options)
    (p : Option OperatorSpec) (cs : List (Option OperatorSpec)) (rest : Forest) :
    (∀ e, (useOperator ctx p options []).err = some e →
        manageOperators ctx options ((p, cs) :: rest) =
          ⟨some e, (useOperator ctx p options []).events⟩) ∧
    ((useOperator ctx p options []).err = none →
        ((manageChildren ctx options (useOperator ctx p options []).refs cs).err = none →
            manageOperators ctx options ((p, cs) :: rest) =
              ⟨(manageOperators ctx options rest).err,
               (useOperator ctx p options []).events ++
                 (manageChildren ctx options (useOperator ctx p options []).refs cs).events ++
                 (manageOperators ctx options rest).events⟩) ∧
        (∀ e,
            (manageChildren ctx options (useOperator ctx p options []).refs cs).err = some e →
            manageOperators ctx options ((p, cs) :: rest) =
              ⟨some e,
               (useOperator ctx p options []).events ++
                 (manageChildren ctx options (useOperator ctx p options []).refs cs).events⟩)) ∧
    (∀ refs,
        ((manageChildren ctx options refs cs).err = none →
            (manageChildren ctx options refs cs).events =
              (cs.map fun c => (useOperator ctx c options refs).events).flatten) ∧
        (∀ e, (manageChildren ctx options refs cs).err = some e →
            ∃ front c' back, cs = front ++ c' :: back ∧
              (∀ x ∈ front, (useOperator ctx x options refs).err = none) ∧
              (useOperator ctx c' options refs).err = some e ∧
              (manageChildren ctx options refs cs).events =
                (front.map fun c => (useOperator ctx c options refs).events).flatten ++
                  (useOperator ctx c' options refs).events)) := by
  refine ⟨?_, ?_, fun refs => ⟨manageChildren_success_events ctx options refs cs,
    fun e h => manageChildren_fail_decomp ctx options refs cs e h⟩⟩
  · intro e h
    simp [manageOperators, h]
  · intro hp
    constructor
    · intro hc
      simp [manageOperators, hp, hc]
    · intro e hc
      simp [manageOperators, hp, hc]

/-- Witness for C3: a failing parent stops the walk — its child and any
later entry contribute no events. -/
theorem c3_witness :
    manageOperators .background optsStop [(some oBad, [some oOk])] =
      ⟨some "boom", [.applyCall 2 .background [] []]⟩ := by
  have h := (c3_parent_before_children .background optsStop (some oBad) [some oOk] []).1
    "boom" (by decide)
  exact h.trans (by rfl)

/-- C4: after a failure under `PurgeOnError`, `Do` still returns the
original error and appends exactly one `Delete` invocation per non-`nil`
parent (children never appear), each under the fresh non-cancelled
background context with foreground propagation, the apply-side dry-run
flag computation and the caller's original callbacks; the deletes' own
outcomes are discarded. -/
theorem c4_purge_deletes_parents (ctx : Ctx) (options : Options) (forest : Forest)
    (e : Err) (h1 : options.onError = .purgeOnError)
    (h2 : (manageOperators ctx options forest).err = some e) :
    (managerDo ctx options forest).err = some e ∧
    (managerDo ctx options forest).events =
      (manageOperators ctx options forest).events ++
        forest.filterMap (fun pc => pc.1.map fun o =>
          Event.deleteCall o.id .background
            ⟨"Foreground", getDryRunFlag options.dryRun, options.callbacks⟩) := by
  constructor
  · simp [managerDo, h2, h1]
  · simp [managerDo, h2, h1, purgeParents, opDelete, purgeDeleteOptions]

/-- Witness for C4: a cancelled caller context, a failing parent, a `nil`
parent and a healthy parent — both non-`nil` parents are deleted once,
under the background context, with the dry-run flag and original
callbacks; the error stays the walk's. -/
theorem c4_witness :
    (managerDo (.caller true) optsPurge
        [(some oBad, []), (none, []), (some oOk, [])]).err = some "boom" ∧
    (managerDo (.caller true) optsPurge
        [(some oBad, []), (none, []), (some oOk, [])]).events =
      [.applyCall 2 (.caller true) [] ["All"],
       .deleteCall 2 .background ⟨"Foreground", ["All"], noCallbacks⟩,
       .deleteCall 3 .background ⟨"Foreground", ["All"], noCallbacks⟩] := by
  have h := c4_purge_deletes_parents (.caller true) optsPurge
    [(some oBad, []), (none, []), (some oOk, [])] "boom" rfl (by decide)
  exact ⟨h.1, h.2.trans (by rfl)⟩

end Hydro
